import Mathlib

/-!
Verification development for the MiniSat fork's utility layer: the growable
array template (Vec.h), the option parsing machinery (Options.cc) and the
assertion macro (Assert.h / Assert.cc).  C++ code is shallowly embedded:
machine integers (the vec size type is `int`, 32-bit) become `Int` with
explicit two's-complement wraparound where overflow matters, buffers become
`List`s, and fallible operations return `Except`.
-/

set_option autoImplicit false

namespace Minisat

/-- `INT_MAX` for the 32-bit `int` used as the vec size type
(`std::numeric_limits<int>::max()`). -/
def intMax : Int := 2 ^ 31 - 1

/-- Two's-complement wraparound of a mathematical integer to signed 32 bits:
the value a C++ `int` holds after an overflowing arithmetic operation. -/
def wrap32 (x : Int) : Int := (x + 2 ^ 31) % 2 ^ 32 - 2 ^ 31

/-- `x & ~1` on a two's-complement integer: clear the lowest bit, i.e. round
down to an even number (also for negatives). -/
def clearBit0 (x : Int) : Int := 2 * (x / 2)

/-- `x >> 1` on a two's-complement integer (arithmetic shift): floor division
by two. -/
def shiftR1 (x : Int) : Int := x / 2

/-- The growable array `vec<T>` of Vec.h: `data` holds the `sz` live
elements in order; `cap` is the current capacity (a C++ `int`). The raw
buffer slack between `sz` and `cap` carries no constructed values that the
operations modelled here read. -/
structure Vec (α : Type) where
  data : List α
  cap : Int
  deriving Repr, DecidableEq

/-- The growth increment computed by `vec::capacity` (Vec.h line 145):
`max((min_cap - cap + 1) & ~1, ((cap >> 1) + 2) & ~1)`, evaluated in 32-bit
`int` arithmetic (the sum `min_cap - cap + 1` wraps on overflow). -/
def capAddend (cap min_cap : Int) : Int :=
  max (clearBit0 (wrap32 (wrap32 (min_cap - cap) + 1)))
      (clearBit0 (wrap32 (shiftR1 cap + 2)))

/-- `vec::capacity(min_cap)` (Vec.h lines 142-153).  If `cap >= min_cap` it
returns unchanged.  Otherwise it computes the increment `add`; it throws
`OutOfMemoryException` (modelled as `Except.error ()`) when
`add > size_max - cap` with `size_max = INT_MAX`, or when the `realloc`
fails (modelled by the `allocOk` flag being false); otherwise the capacity
becomes `cap + add` and `realloc` preserves the stored elements. -/
def vecCapacity {α : Type} (v : Vec α) (min_cap : Int) (allocOk : Bool) :
    Except Unit (Vec α) :=
  if min_cap ≤ v.cap then .ok v
  else if intMax - v.cap < capAddend v.cap min_cap then .error ()
  else if allocOk then .ok { v with cap := v.cap + capAddend v.cap min_cap }
  else .error ()

/-- The effect of `vec::pop` (Vec.h lines 119-123) on the size field and the
buffer index whose destructor is invoked: the statement `data[sz--].~T()`
reads the index `sz` *before* the post-decrement, so the destructed index is
the old `sz` itself while the new size is `sz - 1`. -/
structure PopEffect where
  destructedIndex : Int
  newSz : Int
  deriving Repr, DecidableEq

/-- `vec::pop` as it acts on a vec of size `sz` (Vec.h lines 119-123). -/
def vecPop (sz : Int) : PopEffect :=
  { destructedIndex := sz, newSz := sz - 1 }

/-- The in-place compaction loop of `vec::retain` (Vec.h lines 184-196):
`for (i = j = 0; i < size(); ++i) if (pred((*this)[i])) (*this)[j++] = (*this)[i];`
acting on the live buffer `arr` (length `sz`).  Returns the final buffer and
the final value of `j`. -/
def retainLoop {α : Type} (p : α → Bool) (arr : List α) (i j : Nat) :
    List α × Nat :=
  if h : i < arr.length then
    if p (arr.get ⟨i, h⟩) then
      retainLoop p (arr.set j (arr.get ⟨i, h⟩)) (i + 1) (j + 1)
    else retainLoop p arr (i + 1) j
  else (arr, j)
termination_by arr.length - i
decreasing_by
  all_goals first
    | (simp only [List.length_set]; omega)
    | omega

/-- `vec::retain(pred)` (Vec.h lines 184-196): run the compaction loop from
`i = j = 0`, then `shrink(i - j)` (with `i = sz`) pops the buffer back to
the first `j` elements, destructing the dropped tail. -/
def vecRetain {α : Type} (p : α → Bool) (v : Vec α) : Vec α :=
  let r := retainLoop p v.data 0 0
  { data := r.1.take r.2, cap := v.cap }

/-- Modelled from the spec: the helper `match(in, str)` of Options.h, whose
definition is not among these sources (Options.cc only calls it).  Per the
option forms the spec documents (`-name=value`, `-no-name`, `--help`,
prefix-matched flags), it tries to consume `str` as a prefix of `in`,
advancing `in` past it on success and leaving it untouched on failure.
`pfxConsume pat s` returns the remainder of `s` after `pat`, or `none`. -/
def pfxConsume : List Char → List Char → Option (List Char)
  | [], s => some s
  | _ :: _, [] => none
  | c :: cs, d :: ds => if c = d then pfxConsume cs ds else none

/-- Result of a single `Option::parse(str)` call of a typed option
(Options.cc): the flag did not match (`parse` returns false), or matched
with a successfully parsed value, or matched with a bad value, in which
case `parse` calls `exit(1)`. -/
inductive ParseRes (V : Type) where
  | noMatch
  | setVal (v : V)
  | exitFail
  deriving Repr, DecidableEq

/-- `Option::parse` (Options.cc lines 114-122): consume `-`, the option
name and `=`; on a full match hand the remaining span to the option's
`parseValue` (abstracted as `pv`), exiting with code 1 when it fails. -/
def optionParse {V : Type} (name : List Char) (pv : List Char → Option V)
    (s : List Char) : ParseRes V :=
  match pfxConsume ['-'] s with
  | none => .noMatch
  | some s1 =>
    match pfxConsume name s1 with
    | none => .noMatch
    | some s2 =>
      match pfxConsume ['='] s2 with
      | none => .noMatch
      | some v =>
        match pv v with
        | some x => .setVal x
        | none => .exitFail

/-- `BoolOption::parseValue` (Options.cc lines 346-370): lower-case the
string and accept exactly the listed true/false spellings; `none` models
the diagnostic-and-return-false path (the stored value is unchanged). -/
def boolParseValue (s : List Char) : Option Bool :=
  if s.map Char.toLower = ['t','r','u','e'] ∨ s.map Char.toLower = ['y','e','s']
      ∨ s.map Char.toLower = ['o','n'] ∨ s.map Char.toLower = ['1'] then
    some true
  else if s.map Char.toLower = ['f','a','l','s','e']
      ∨ s.map Char.toLower = ['n','o'] ∨ s.map Char.toLower = ['o','f','f']
      ∨ s.map Char.toLower = ['0'] then
    some false
  else none

/-- `BoolOption::parse` (Options.cc lines 310-344): after consuming `-`,
first try the `no-` prefix (requiring the rest to equal the name exactly,
via `strcmp`), then the name itself followed by either `=value` (exiting
with code 1 on a bad value), the end of the string (enable), or anything
else (no match). -/
def boolOptionParse (name s : List Char) : ParseRes Bool :=
  match pfxConsume ['-'] s with
  | none => .noMatch
  | some s1 =>
    match pfxConsume ['n','o','-'] s1 with
    | some s2 => if s2 = name then .setVal false else .noMatch
    | none =>
      match pfxConsume name s1 with
      | none => .noMatch
      | some s2 =>
        match pfxConsume ['='] s2 with
        | some v =>
          match boolParseValue v with
          | some b => .setVal b
          | none => .exitFail
        | none => if s2 = [] then .setVal true else .noMatch

/-- `MINISAT_<NAME>` construction of `Option::parseEnv` (Options.cc lines
101-103): prepend `MINISAT_`, replace `-` by `_` and upper-case every other
character. -/
def envVarName (name : List Char) : List Char :=
  ['M','I','N','I','S','A','T','_'] ++
    name.map (fun c => if c = '-' then '_' else c.toUpper)

/-- `Option::parseEnv` (Options.cc lines 99-112): read the environment
variable `envVarName name` (the environment is a partial map `env`); if it
is set and the option's `parseValue` (abstracted as `pv`) accepts its
value, the option's value becomes the parsed value and `true` is returned;
otherwise the value `cur` is unchanged and `false` is returned. -/
def parseEnv {V : Type} (env : List Char → Option (List Char))
    (name : List Char) (pv : List Char → Option V) (cur : V) : Bool × V :=
  match env (envVarName name) with
  | none => (false, cur)
  | some s =>
    match pv s with
    | none => (false, cur)
    | some v => (true, v)

/-- Outcome of offering one command-line argument to one registered
option's `parse` inside the `parseOptions` loop. -/
inductive OptOutcome where
  | notParsed
  | parsed
  | exited
  deriving Repr, DecidableEq

/-- The inner loop of `parseOptions` (Options.cc lines 45-49): try each
registered option in order until one parses the argument; an `exit(1)`
inside a `parse` call aborts the scan. -/
def runOpts (opts : List (List Char → OptOutcome)) (a : List Char) :
    OptOutcome :=
  match opts with
  | [] => .notParsed
  | o :: os =>
    match o a with
    | .notParsed => runOpts os a
    | .parsed => .parsed
    | .exited => .exited

/-- Classification of an argument by the help branch of `parseOptions`
(Options.cc lines 37-41): `--<prefix>help` prints usage and exits 0;
`--<prefix>help-verb...` prints verbose usage and exits 0; any other
`--<prefix>help...` argument is silently consumed; everything else is not a
help argument. -/
inductive HelpForm where
  | notHelp
  | plain
  | verbose
  | swallowed
  deriving Repr, DecidableEq

/-- The help-detection chain `match(str, "--") && match(str, prefix) &&
match(str, "help")` with the two inner tests (Options.cc lines 37-41). -/
def helpCheck (hp a : List Char) : HelpForm :=
  match pfxConsume ['-','-'] a with
  | none => .notHelp
  | some s1 =>
    match pfxConsume hp s1 with
    | none => .notHelp
    | some s2 =>
      match pfxConsume ['h','e','l','p'] s2 with
      | none => .notHelp
      | some s3 =>
        if s3 = [] then .plain
        else
          match pfxConsume ['-','v','e','r','b'] s3 with
          | some _ => .verbose
          | none => .swallowed

/-- Result of `parseOptions`: either the filtered argument list that
remains (non-option arguments, order preserved), or a process exit with
the given code, recording whether the usage text was printed on the way
out (`printUsageAndExit` prints it; the strict-mode unknown-flag branch
and `exit(1)` inside `Option::parse` print only error diagnostics). -/
inductive CliResult where
  | ok (remaining : List (List Char))
  | exited (code : Nat) (printedUsage : Bool)
  deriving Repr, DecidableEq

/-- The argument loop of `parseOptions(argc, argv, strict)` (Options.cc
lines 32-61), from `i = 1`; `kept` accumulates the arguments copied back
(`argv[j++] = argv[i]`). -/
def parseOptionsLoop (opts : List (List Char → OptOutcome)) (strict : Bool)
    (hp : List Char) : List (List Char) → List (List Char) → CliResult
  | [], kept => .ok kept.reverse
  | a :: rest, kept =>
    match helpCheck hp a with
    | .plain => .exited 0 true
    | .verbose => .exited 0 true
    | .swallowed => parseOptionsLoop opts strict hp rest kept
    | .notHelp =>
      match runOpts opts a with
      | .parsed => parseOptionsLoop opts strict hp rest kept
      | .exited => .exited 1 false
      | .notParsed =>
        if strict && (pfxConsume ['-'] a).isSome then .exited 1 false
        else parseOptionsLoop opts strict hp rest (a :: kept)

/-- `parseOptions(argc, argv, strict)` over the arguments after `argv[0]`,
with help prefix `hp` (`Option::getHelpPrefixString()`, default empty). -/
def parseOptionsModel (opts : List (List Char → OptOutcome)) (strict : Bool)
    (hp : List Char) (args : List (List Char)) : CliResult :=
  parseOptionsLoop opts strict hp args []

/-- Adapter from a typed option's `parse` result to the boolean the
`parseOptions` loop observes (Options.cc line 46): a successful parse is
`true`, a non-matching flag is `false`, and an `exit(1)` inside `parse`
terminates the process. -/
def toOutcome {V : Type} : ParseRes V → OptOutcome
  | .noMatch => .notParsed
  | .setVal _ => .parsed
  | .exitFail => .exited

/-- `isspace` characters skipped by `strtol`/`strtoll` (C locale). -/
def isSpaceChar (c : Char) : Bool :=
  c == ' ' || c == '\t' || c == '\n' || c == '\x0b' || c == '\x0c' || c == '\r'

/-- Leading-whitespace skipping of `strtol`. -/
def dropSpaces : List Char → List Char
  | [] => []
  | c :: cs => if isSpaceChar c then dropSpaces cs else c :: cs

/-- Split a maximal run of decimal digits off the front. -/
def digitsSpan : List Char → List Char × List Char
  | [] => ([], [])
  | c :: cs =>
    if c.isDigit then
      ((digitsSpan cs).1.cons c, (digitsSpan cs).2)
    else ([], c :: cs)

/-- Value of a digit string, most significant first. -/
def digitsVal (ds : List Char) : Int :=
  ds.foldl (fun a c => 10 * a + ((c.toNat : Int) - 48)) 0

/-- `LONG_MAX` on the 64-bit targets the build supports. -/
def longMax : Int := 2 ^ 63 - 1

/-- `LONG_MIN` on the 64-bit targets the build supports. -/
def longMin : Int := -2 ^ 63

/-- `strtol` clamps an out-of-range value to `LONG_MIN`/`LONG_MAX`. -/
def clampLong (x : Int) : Int := max longMin (min longMax x)

/-- The sign read by `strtol` after whitespace: -1 for a leading `-`. -/
def strtolSign (t : List Char) : Int := if t.head? = some '-' then -1 else 1

/-- The characters `strtol` reads digits from: the input after whitespace,
with a single leading `-` or `+` consumed. -/
def strtolBody (t : List Char) : List Char :=
  if t.head? = some '-' ∨ t.head? = some '+' then t.tail else t

/-- `strtol(str, &end, 10)` on a 64-bit `long`: skip C whitespace, read an
optional sign and a maximal digit run; with no digits the result is 0 and
`end` is reset to the start of the string (so an empty string leaves
`*end == '\0'`); otherwise the clamped value and the tail after the digits.
Returns (value, remaining characters at `end`). -/
def strtolModel (s : List Char) : Int × List Char :=
  if (digitsSpan (strtolBody (dropSpaces s))).1 = [] then (0, s)
  else (clampLong (strtolSign (dropSpaces s) *
          digitsVal (digitsSpan (strtolBody (dropSpaces s))).1),
        (digitsSpan (strtolBody (dropSpaces s))).2)

/-- Result of a `parseValue` call on an int option: whether it accepted,
the stored value afterwards, and whether a diagnostic was printed. -/
structure ValueParseRes where
  ok : Bool
  value : Int
  printed : Bool
  deriving Repr, DecidableEq

/-- `IntOption::parseValue` (Options.cc lines 173-197): `strtol` the string
into an `int32_t` (narrowing the 64-bit `long`, which wraps), reject when
the string was not fully consumed or the value is above `hi` or below `lo`
(printing a diagnostic and leaving the value `old` unchanged), accept
otherwise. -/
def intParseValue (lo hi old : Int) (s : List Char) : ValueParseRes :=
  if (strtolModel s).2 ≠ [] then ⟨false, old, true⟩
  else if hi < wrap32 (strtolModel s).1 then ⟨false, old, true⟩
  else if wrap32 (strtolModel s).1 < lo then ⟨false, old, true⟩
  else ⟨true, wrap32 (strtolModel s).1, false⟩

/-- The value set of a C++ `double` as `strtod` can produce it and as the
range check compares it: NaN (`strtod` parses the string `nan`), minus or
plus infinity (`±HUGE_VAL`, which the real `DoubleRange` constructions use
as open endpoints, and which `strtod` returns for `inf`), or a finite
value (every finite double is a rational, represented exactly). -/
inductive DoubleV where
  | nan
  | negInf
  | finite (q : ℚ)
  | posInf
  deriving Repr, DecidableEq

/-- IEEE-754 `a <= b` on doubles: false whenever either side is NaN. -/
def dle : DoubleV → DoubleV → Bool
  | .nan, _ => false
  | _, .nan => false
  | .negInf, _ => true
  | _, .negInf => false
  | .posInf, .posInf => true
  | .finite _, .posInf => true
  | .posInf, .finite _ => false
  | .finite q, .finite w => decide (q ≤ w)

/-- IEEE-754 `a < b` on doubles: false whenever either side is NaN. -/
def dlt : DoubleV → DoubleV → Bool
  | .nan, _ => false
  | _, .nan => false
  | .negInf, .negInf => false
  | .negInf, _ => true
  | _, .negInf => false
  | .posInf, _ => false
  | .finite _, .posInf => true
  | .finite q, .finite w => decide (q < w)

/-- IEEE-754 `a == b` on doubles: false whenever either side is NaN — in
particular `tmp != range.end` holds for a NaN `tmp`, which the range check
of `DoubleOption::parseValue` relies on. -/
def deq : DoubleV → DoubleV → Bool
  | .nan, _ => false
  | _, .nan => false
  | .negInf, .negInf => true
  | .posInf, .posInf => true
  | .finite q, .finite w => decide (q = w)
  | _, _ => false

/-- Whether a double value is NaN. -/
def dIsNan : DoubleV → Bool
  | .nan => true
  | _ => false

/-- The range of a `DoubleOption` (the `DoubleRange` struct of Options.h):
endpoints with open/closed flags; real options pass `±HUGE_VAL` as open
endpoints. -/
structure DoubleRange where
  lo : DoubleV
  hi : DoubleV
  loIncl : Bool
  hiIncl : Bool
  deriving Repr, DecidableEq

/-- `DoubleOption::parseValue` (Options.cc lines 130-154) after `strtod`
has produced the value `tmp` and the unconsumed tail `rest`: reject when
the string was not fully consumed, when `tmp >= range.end &&
(!range.end_inclusive || tmp != range.end)`, or when `tmp <= range.begin &&
(!range.begin_inclusive || tmp != range.begin)` — every comparison with
IEEE semantics, hence false when a side is NaN; otherwise store `tmp`.
The second component is the stored value. -/
def doubleParseCheck (r : DoubleRange) (old tmp : DoubleV) (rest : List Char) :
    Bool × DoubleV :=
  if rest ≠ [] then (false, old)
  else if dle r.hi tmp = true ∧ (r.hiIncl = false ∨ deq tmp r.hi = false) then
    (false, old)
  else if dle tmp r.lo = true ∧ (r.loIncl = false ∨ deq tmp r.lo = false) then
    (false, old)
  else (true, tmp)

/-- The claim's reading for C8: the string is entirely a decimal integer —
an optional sign followed by a nonempty digit run and nothing else. -/
def hasDecimalForm (s : List Char) : Bool :=
  match s with
  | '-' :: r => !r.isEmpty && r.all Char.isDigit
  | '+' :: r => !r.isEmpty && r.all Char.isDigit
  | _ => !s.isEmpty && s.all Char.isDigit

/-- Outcome of one `MINISAT_ASSERT(c, ...)` expansion (Assert.h): with
`NDEBUG` the macro is `((void)0)` and the condition is never evaluated;
without it the condition is tested and `AssertionFailure` — which prints
the failed condition to stderr and calls `abort()`, never returning — runs
exactly when the test fails. -/
inductive AssertOutcome where
  | skipped
  | passed
  | failedAborts
  deriving Repr, DecidableEq

/-- The effective `MINISAT_ASSERT_TEST(c)` (Assert.h line 25): `(!!(c))`.
(The `__builtin_expect` variant on line 19 is defined under the misspelled
name `MINISAT_ASSERT_TESTX` and inside an inverted `!defined(__has_builtin)`
guard, so the fallback is always the one in effect.) -/
def minisatAssertTest (c : Bool) : Bool := !(!c)

/-- `MINISAT_ASSERT(c, ...)` (Assert.h lines 9-33) as a function of the
`NDEBUG` configuration and the condition's value. -/
def minisatAssert (ndebug c : Bool) : AssertOutcome :=
  if ndebug then .skipped
  else if minisatAssertTest c then .passed
  else .failedAborts

theorem wrap32_eq_self (x : Int) (h1 : -2 ^ 31 ≤ x) (h2 : x < 2 ^ 31) :
    wrap32 x = x := by
  unfold wrap32
  omega

theorem clearBit0_even (x : Int) : Even (clearBit0 x) :=
  ⟨x / 2, by unfold clearBit0; ring⟩

theorem clearBit0_succ_ge (x : Int) : x ≤ clearBit0 (x + 1) := by
  unfold clearBit0
  omega

theorem capAddend_even (cap min_cap : Int) : Even (capAddend cap min_cap) := by
  unfold capAddend
  rcases max_choice (clearBit0 (wrap32 (wrap32 (min_cap - cap) + 1)))
      (clearBit0 (wrap32 (shiftR1 cap + 2))) with h | h <;>
    rw [h] <;> exact clearBit0_even _

theorem capAddend_ge_needed (cap min_cap : Int) (h1 : 0 < min_cap - cap)
    (h2 : min_cap - cap < intMax) : min_cap - cap ≤ capAddend cap min_cap := by
  unfold intMax at h2
  have key : min_cap - cap ≤ clearBit0 (wrap32 (wrap32 (min_cap - cap) + 1)) := by
    rw [wrap32_eq_self (min_cap - cap) (by omega) (by omega),
        wrap32_eq_self (min_cap - cap + 1) (by omega) (by omega)]
    exact clearBit0_succ_ge _
  unfold capAddend
  exact le_trans key (le_max_left _ _)

theorem capAddend_ge_two (cap min_cap : Int) (h1 : 0 ≤ cap) (h2 : cap ≤ intMax) :
    2 ≤ capAddend cap min_cap := by
  unfold intMax at h2
  have key : 2 ≤ clearBit0 (wrap32 (shiftR1 cap + 2)) := by
    unfold shiftR1
    rw [wrap32_eq_self (cap / 2 + 2) (by omega) (by omega)]
    unfold clearBit0
    omega
  unfold capAddend
  exact le_trans key (le_max_right _ _)

/-- Claim C1 (amended): for a vec with `cap < min_cap` and additionally
`min_cap - cap < INT_MAX` (excluding the single overflowing input
`cap = 0, min_cap = INT_MAX`), `vec::capacity(min_cap)` either returns
normally with capacity at least `min_cap` and the stored elements preserved,
or throws `OutOfMemoryException`; it throws whenever the computed increment
exceeds `INT_MAX - cap`, and whenever the reallocation fails. -/
theorem capacity_grows_or_throws {α : Type} (v : Vec α) (min_cap : Int)
    (allocOk : Bool) (h0 : 0 ≤ v.cap) (hlt : v.cap < min_cap)
    (hmax : min_cap ≤ intMax) (hno : min_cap - v.cap < intMax) :
    ((∃ v', vecCapacity v min_cap allocOk = .ok v' ∧ min_cap ≤ v'.cap ∧
        v'.data = v.data) ∨ vecCapacity v min_cap allocOk = .error ())
    ∧ (intMax - v.cap < capAddend v.cap min_cap →
        vecCapacity v min_cap allocOk = .error ())
    ∧ (allocOk = false → vecCapacity v min_cap allocOk = .error ()) := by
  have hadd := capAddend_ge_needed v.cap min_cap (by omega) hno
  refine ⟨?_, ?_, ?_⟩
  · by_cases hoo : intMax - v.cap < capAddend v.cap min_cap
    · exact Or.inr (by unfold vecCapacity; rw [if_neg (by omega), if_pos hoo])
    · cases allocOk with
      | false =>
          refine Or.inr ?_
          unfold vecCapacity
          rw [if_neg (by omega), if_neg hoo]
          rfl
      | true =>
          refine Or.inl ⟨⟨v.data, v.cap + capAddend v.cap min_cap⟩, ?_, by dsimp; omega, rfl⟩
          unfold vecCapacity
          rw [if_neg (by omega), if_neg hoo]
          rfl
  · intro h
    unfold vecCapacity
    rw [if_neg (by omega), if_pos h]
  · intro h
    subst h
    unfold vecCapacity
    rw [if_neg (by omega)]
    by_cases hoo : intMax - v.cap < capAddend v.cap min_cap
    · rw [if_pos hoo]
    · rw [if_neg hoo]
      rfl

/-- Witness for the amended claim C1 at the concrete input
`v = ⟨[], 0⟩, min_cap = 1, allocOk = true`. -/
theorem capacity_grows_or_throws_witness :
    ((∃ v', vecCapacity (⟨[], 0⟩ : Vec Unit) 1 true = .ok v' ∧ 1 ≤ v'.cap ∧
        v'.data = (⟨[], 0⟩ : Vec Unit).data)
      ∨ vecCapacity (⟨[], 0⟩ : Vec Unit) 1 true = .error ())
    ∧ (intMax - (0 : Int) < capAddend 0 1 →
        vecCapacity (⟨[], 0⟩ : Vec Unit) 1 true = .error ())
    ∧ (true = false → vecCapacity (⟨[], 0⟩ : Vec Unit) 1 true = .error ()) :=
  capacity_grows_or_throws ⟨[], 0⟩ 1 true (by decide) (by decide) (by decide)
    (by decide)

/-- Counterexample to claim C1 as stated: at `cap = 0`, `min_cap = INT_MAX`
the expression `min_cap - cap + 1` overflows `int`, the computed increment is
2, and `capacity` returns normally with capacity 2, far below `min_cap`. -/
theorem capacity_counterexample :
    vecCapacity (⟨[], 0⟩ : Vec Unit) intMax true = .ok ⟨[], 2⟩ ∧
      ¬ (intMax ≤ (2 : Int)) := by
  constructor
  · rfl
  · decide

theorem capAddend_push_bounds (cap : Int) (h0 : 0 ≤ cap) (h2 : cap + 1 ≤ intMax) :
    cap / 2 + 1 ≤ capAddend cap (cap + 1) ∧ capAddend cap (cap + 1) ≤ cap / 2 + 2 := by
  unfold intMax at h2
  have e1 : wrap32 (cap + 1 - cap) = 1 := by unfold wrap32; omega
  unfold capAddend
  rw [e1]
  have e2 : wrap32 (1 + 1) = 2 := by unfold wrap32; omega
  have e3 : wrap32 (shiftR1 cap + 2) = cap / 2 + 2 := by unfold wrap32 shiftR1; omega
  rw [e2, e3]
  have hcb : clearBit0 2 = 2 := by unfold clearBit0; norm_num
  rw [hcb]
  constructor
  · refine le_trans ?_ (le_max_right _ _)
    unfold clearBit0
    omega
  · apply max_le
    · omega
    · unfold clearBit0
      omega

/-- Claim C2 (amended): when `vec::capacity(min_cap)` grows a vec with
`cap < min_cap` and `min_cap - cap < INT_MAX` (excluding the single
overflowing input `cap = 0, min_cap = INT_MAX`), the capacity increase
equals `max((min_cap - cap + 1) & ~1, ((cap >> 1) + 2) & ~1)` (`capAddend`,
taken verbatim from the source), the new capacity is at least `min_cap`,
and growing a full vec by one element — `push()` calls
`capacity(sz + 1)` with `sz = cap` — lands between `cap + cap/2 + 1` and
`cap + cap/2 + 2`, i.e. multiplies the capacity by approximately 1.5. -/
theorem capacity_growth_rate {α : Type} (v : Vec α) (min_cap : Int)
    (allocOk : Bool) (h0 : 0 ≤ v.cap) (hlt : v.cap < min_cap)
    (hmax : min_cap ≤ intMax) (hno : min_cap - v.cap < intMax) :
    (∀ v', vecCapacity v min_cap allocOk = .ok v' →
        v'.cap - v.cap = capAddend v.cap min_cap ∧ min_cap ≤ v'.cap) ∧
    (min_cap = v.cap + 1 →
      ∀ v', vecCapacity v min_cap allocOk = .ok v' →
        v.cap + v.cap / 2 + 1 ≤ v'.cap ∧ v'.cap ≤ v.cap + v.cap / 2 + 2) := by
  have hadd := capAddend_ge_needed v.cap min_cap (by omega) hno
  have hok : ∀ v', vecCapacity v min_cap allocOk = .ok v' →
      v'.cap = v.cap + capAddend v.cap min_cap := by
    intro v' hv
    unfold vecCapacity at hv
    rw [if_neg (by omega)] at hv
    split_ifs at hv with hoo hal
    rw [Except.ok.injEq] at hv
    subst hv
    rfl
  refine ⟨fun v' hv => ?_, fun hpush v' hv => ?_⟩
  · have := hok v' hv
    omega
  · have h1 := hok v' hv
    subst hpush
    have h2 := capAddend_push_bounds v.cap h0 (by omega)
    omega

/-- Witness for the amended claim C2 at `v = ⟨[], 0⟩ : Vec Unit`,
`min_cap = 1`, `allocOk = true`. -/
theorem capacity_growth_rate_witness :
    (∀ v', vecCapacity (⟨[], 0⟩ : Vec Unit) 1 true = .ok v' →
        v'.cap - (0 : Int) = capAddend 0 1 ∧ 1 ≤ v'.cap) ∧
    ((1 : Int) = 0 + 1 →
      ∀ v', vecCapacity (⟨[], 0⟩ : Vec Unit) 1 true = .ok v' →
        (0 : Int) + 0 / 2 + 1 ≤ v'.cap ∧ v'.cap ≤ 0 + 0 / 2 + 2) :=
  capacity_growth_rate ⟨[], 0⟩ 1 true (by decide) (by decide) (by decide)
    (by decide)

/-- Counterexample to claim C2 as stated: at `cap = 0`, `min_cap = INT_MAX`
the vec is grown (capacity 0 becomes 2), yet the new capacity is *not* at
least `min_cap`, because `min_cap - cap + 1` overflowed when the increment
was computed. -/
theorem capacity_growth_counterexample :
    vecCapacity (⟨[()], 0⟩ : Vec Unit) intMax true = .ok ⟨[()], 2⟩ ∧
      ¬ (intMax ≤ (0 : Int) + capAddend 0 intMax) := by
  exact ⟨rfl, by decide⟩

/-- Claim C3 (code bug): `pop()` on a vec of size 1 decrements the size to
0 as the claim states, but the destructor call `data[sz--].~T()` reads the
index `sz` before the post-decrement: it destructs `data[1]`, which is
outside the live range `[0, 1)`, and leaves the actual last element
`data[0]` undestructed.  (Upstream MiniSat has `sz--, data[sz].~T();`.) -/
theorem pop_destructs_out_of_range :
    (vecPop 1).newSz = 0 ∧ (vecPop 1).destructedIndex = 1 ∧
      ¬ ((vecPop 1).destructedIndex < 1) := by
  decide

/-- Claim C9: starting from an even capacity (a fresh vec has capacity 0),
every successful `vec::capacity` call yields an even capacity within
`[0, INT_MAX]` obtained by an even increment; consequently the capacity
never equals the odd value `INT_MAX`, and the expression `sz + 1` inside
`push()` (where `sz = cap` when it grows, and `sz < cap ≠ INT_MAX`
otherwise) never overflows, modelled by `wrap32 (cap + 1) = cap + 1`. -/
theorem capacity_stays_even {α : Type} (v : Vec α) (h0 : 0 ≤ v.cap)
    (hm : v.cap ≤ intMax) (hev : Even v.cap) :
    (∀ min_cap allocOk v', vecCapacity v min_cap allocOk = .ok v' →
        Even v'.cap ∧ 0 ≤ v'.cap ∧ v'.cap ≤ intMax ∧ Even (v'.cap - v.cap)) ∧
    v.cap ≠ intMax ∧ wrap32 (v.cap + 1) = v.cap + 1 := by
  obtain ⟨k, hk⟩ := hev
  have hne : v.cap ≠ intMax := by unfold intMax; omega
  refine ⟨?_, hne, wrap32_eq_self _ (by unfold intMax at hm; omega)
    (by unfold intMax at hm hne; omega)⟩
  intro min_cap allocOk v' hv
  have hge2 := capAddend_ge_two v.cap min_cap h0 hm
  unfold vecCapacity at hv
  split_ifs at hv with h1 h2 h3
  · rw [Except.ok.injEq] at hv
    subst hv
    exact ⟨⟨k, hk⟩, h0, hm, ⟨0, by omega⟩⟩
  · rw [Except.ok.injEq] at hv
    subst hv
    obtain ⟨m, hm2⟩ := capAddend_even v.cap min_cap
    exact ⟨⟨k + m, by dsimp; omega⟩, by dsimp; omega, by dsimp; omega,
      ⟨m, by dsimp; omega⟩⟩

/-- Witness for claim C9 at the fresh vec `⟨[], 0⟩ : Vec Unit`. -/
theorem capacity_stays_even_witness :
    (∀ min_cap allocOk v',
        vecCapacity (⟨[], 0⟩ : Vec Unit) min_cap allocOk = .ok v' →
        Even v'.cap ∧ 0 ≤ v'.cap ∧ v'.cap ≤ intMax ∧ Even (v'.cap - 0)) ∧
    (0 : Int) ≠ intMax ∧ wrap32 (0 + 1) = 0 + 1 :=
  capacity_stays_even ⟨[], 0⟩ (by decide) (by decide) even_zero

theorem takeSetSame {α : Type} :
    ∀ (l : List α) (j : Nat) (a : α), (l.set j a).take j = l.take j
  | [], _, _ => by simp
  | _ :: _, 0, _ => by simp
  | _ :: xs, j + 1, a => by
      simp only [List.set_cons_succ, List.take_succ_cons]
      rw [takeSetSame xs j a]

theorem takeSetSucc {α : Type} (l : List α) (j : Nat) (a : α)
    (h : j < l.length) : (l.set j a).take (j + 1) = l.take j ++ [a] := by
  rw [List.take_succ, takeSetSame]
  congr 1
  rw [List.getElem?_set]
  simp [h]

theorem retainLoop_spec {α : Type} (p : α → Bool) (orig : List α) :
    ∀ (arr : List α) (i j : Nat),
      arr.length = orig.length →
      j ≤ i →
      j ≤ arr.length →
      arr.take j = (orig.take i).filter p →
      arr.drop i = orig.drop i →
      (retainLoop p arr i j).1.take (retainLoop p arr i j).2 = orig.filter p ∧
        (retainLoop p arr i j).2 = (orig.filter p).length := by
  intro arr i j
  induction arr, i, j using retainLoop.induct p with
  | case3 arr i j h =>
      intro hlen hji hjl htake hdrop
      rw [retainLoop, dif_neg h]
      have hio : orig.length ≤ i := by omega
      have : orig.take i = orig := List.take_of_length_le hio
      rw [this] at htake
      refine ⟨htake, ?_⟩
      have := congrArg List.length htake
      simpa [Nat.min_eq_left hjl] using this
  | case1 arr i j h hp ih =>
      intro hlen hji hjl htake hdrop
      have hio : i < orig.length := by omega
      have hx : arr.get ⟨i, h⟩ = orig.get ⟨i, hio⟩ := by
        have := congrArg (fun l => l.head?) hdrop
        simpa [List.head?_drop, List.getElem?_eq_getElem, h, hio] using this
      rw [retainLoop, dif_pos h, if_pos hp]
      apply ih
      · simpa using hlen
      · omega
      · simp
        omega
      · rw [takeSetSucc _ _ _ (by omega), htake]
        rw [List.take_succ, List.getElem?_eq_getElem hio]
        simp only [Option.toList_some, List.filter_append]
        have hp2 : p (orig.get ⟨i, hio⟩) = true := hx ▸ hp
        simp only [List.get_eq_getElem] at hp2
        rw [hx]
        simp [hp2, List.get_eq_getElem]
      · rw [List.drop_set_of_lt _ _ (by omega)]
        calc arr.drop (i + 1) = (arr.drop i).tail := by rw [List.tail_drop]
          _ = (orig.drop i).tail := by rw [hdrop]
          _ = orig.drop (i + 1) := by rw [List.tail_drop]
  | case2 arr i j h hp ih =>
      intro hlen hji hjl htake hdrop
      have hio : i < orig.length := by omega
      have hx : arr.get ⟨i, h⟩ = orig.get ⟨i, hio⟩ := by
        have := congrArg (fun l => l.head?) hdrop
        simpa [List.head?_drop, List.getElem?_eq_getElem, h, hio] using this
      rw [retainLoop, dif_pos h, if_neg hp]
      apply ih
      · exact hlen
      · omega
      · omega
      · rw [htake, List.take_succ, List.getElem?_eq_getElem hio]
        simp only [Option.toList_some, List.filter_append]
        have hp2 : ¬ p (orig.get ⟨i, hio⟩) = true := hx ▸ hp
        simp only [List.get_eq_getElem] at hp2
        simp [hp2]
      · calc arr.drop (i + 1) = (arr.drop i).tail := by rw [List.tail_drop]
          _ = (orig.drop i).tail := by rw [hdrop]
          _ = orig.drop (i + 1) := by rw [List.tail_drop]

/-- Claim C10: `retain(p)` replaces the contents of the vec with exactly
the subsequence of its former elements satisfying `p` — `List.filter p`,
which preserves relative order — and the size decreases by the number of
removed elements (those failing `p`). -/
theorem retain_keeps_exactly_satisfying {α : Type} (p : α → Bool)
    (v : Vec α) :
    (vecRetain p v).data = v.data.filter p ∧
    (vecRetain p v).data.length + (v.data.filter (fun a => ! p a)).length
      = v.data.length ∧
    (vecRetain p v).cap = v.cap := by
  have h := retainLoop_spec p v.data v.data 0 0 rfl (le_refl 0)
    (Nat.zero_le _) (by simp) rfl
  unfold vecRetain
  dsimp only
  refine ⟨h.1, ?_, rfl⟩
  rw [h.1]
  exact (List.length_eq_length_filter_add p).symm

theorem pfxConsume_eq_some (p : List Char) :
    ∀ (s r : List Char), pfxConsume p s = some r ↔ s = p ++ r := by
  induction p with
  | nil => intro s r; simp [pfxConsume]
  | cons c cs ih =>
    intro s r
    cases s with
    | nil => simp [pfxConsume]
    | cons d ds =>
      simp only [pfxConsume]
      by_cases h : c = d
      · subst h
        simp [ih]
      · rw [if_neg h]
        simp only [List.cons_append, List.cons.injEq]
        constructor
        · intro hh
          exact absurd hh (by simp)
        · intro hh
          exact absurd hh.1 (fun hh2 => h hh2.symm)

theorem pfxConsume_append (p r : List Char) : pfxConsume p (p ++ r) = some r :=
  (pfxConsume_eq_some p (p ++ r) r).mpr rfl

theorem pfxConsume_self (p : List Char) : pfxConsume p p = some [] := by
  have := pfxConsume_append p []
  simpa using this

theorem pfxConsume_no_extend (name tail : List Char)
    (h : pfxConsume ['n','o','-'] name = none) :
    pfxConsume ['n','o','-'] (name ++ '=' :: tail) = none := by
  match name with
  | [] => simp [pfxConsume]
  | [c] =>
      by_cases hc : 'n' = c
      · subst hc
        simp [pfxConsume]
      · simp [pfxConsume, hc]
  | [c, d] =>
      by_cases hc : 'n' = c
      · subst hc
        by_cases hd : 'o' = d
        · subst hd
          simp [pfxConsume]
        · simp [pfxConsume, hd]
      · simp [pfxConsume, hc]
  | c :: d :: e :: rest =>
      by_cases hc : 'n' = c
      · subst hc
        by_cases hd : 'o' = d
        · subst hd
          by_cases he : '-' = e
          · subst he
            simp [pfxConsume] at h
          · simp [pfxConsume, he]
        · simp [pfxConsume, hd]
      · simp [pfxConsume, hc]

theorem dash_consume (s : List Char) : pfxConsume ['-'] ('-' :: s) = some s := by
  simp [pfxConsume]

theorem eqConsume (v : List Char) : pfxConsume ['='] ('=' :: v) = some v := by
  simp [pfxConsume]

theorem noDashConsume (s : List Char) :
    pfxConsume ['n','o','-'] ('n' :: 'o' :: '-' :: s) = some s := by
  simp [pfxConsume]

/-- Claim C6 (amended): for every boolean option whose name does not begin
with `no-`, `BoolOption::parse` accepts exactly `-N` (setting true),
`-no-N` (setting false) and `-N=v` with `v` case-insensitively one of
`true/yes/on/1` (true) or `false/no/off/0` (false, with any other `v`
exiting); every other string is rejected with the value untouched.  (For a
name that itself begins with `no-`, the `no-` branch of `parse` captures
`-N` and `-N=v` and rejects them, so the claim needs the restriction.) -/
theorem boolOption_parse_exact (name : List Char)
    (hname : pfxConsume ['n','o','-'] name = none) :
    (boolOptionParse name ('-' :: name) = .setVal true) ∧
    (boolOptionParse name ('-' :: 'n' :: 'o' :: '-' :: name) = .setVal false) ∧
    (∀ v, boolOptionParse name ('-' :: (name ++ '=' :: v)) =
        match boolParseValue v with
        | some b => ParseRes.setVal b
        | none => ParseRes.exitFail) ∧
    (∀ v, boolParseValue v = some true ↔
        v.map Char.toLower ∈ [['t','r','u','e'], ['y','e','s'], ['o','n'], ['1']]) ∧
    (∀ v, boolParseValue v = some false ↔
        v.map Char.toLower ∈
          [['f','a','l','s','e'], ['n','o'], ['o','f','f'], ['0']]) ∧
    (∀ s, boolOptionParse name s ≠ .noMatch →
        s = '-' :: name ∨ s = '-' :: 'n' :: 'o' :: '-' :: name ∨
          ∃ v, s = '-' :: (name ++ '=' :: v)) := by
  refine ⟨?_, ?_, ?_, ?_, ?_, ?_⟩
  · unfold boolOptionParse
    rw [dash_consume]
    dsimp only
    rw [hname]
    dsimp only
    rw [pfxConsume_self]
    dsimp only
    rw [show pfxConsume ['='] ([] : List Char) = none from rfl]
    dsimp only
    rw [if_pos rfl]
  · unfold boolOptionParse
    rw [dash_consume]
    dsimp only
    rw [noDashConsume]
    dsimp only
    rw [if_pos rfl]
  · intro v
    unfold boolOptionParse
    rw [dash_consume]
    dsimp only
    rw [pfxConsume_no_extend name v hname]
    dsimp only
    rw [pfxConsume_append]
    dsimp only
    rw [eqConsume]
  · intro v
    constructor
    · intro hv
      unfold boolParseValue at hv
      split_ifs at hv with h1 h2
      · simpa [List.mem_cons] using h1
      · exact absurd hv (by simp)
    · intro hmem
      simp only [List.mem_cons, List.not_mem_nil, or_false] at hmem
      unfold boolParseValue
      rw [if_pos hmem]
  · intro v
    constructor
    · intro hv
      unfold boolParseValue at hv
      split_ifs at hv with h1 h2
      · exact absurd hv (by simp)
      · simpa [List.mem_cons] using h2
    · intro hmem
      simp only [List.mem_cons, List.not_mem_nil, or_false] at hmem
      have hnot : ¬(v.map Char.toLower = ['t','r','u','e']
          ∨ v.map Char.toLower = ['y','e','s']
          ∨ v.map Char.toLower = ['o','n'] ∨ v.map Char.toLower = ['1']) := by
        rcases hmem with h | h | h | h <;> rw [h] <;> decide
      unfold boolParseValue
      rw [if_neg hnot, if_pos hmem]
  · intro s h
    unfold boolOptionParse at h
    cases hm : pfxConsume ['-'] s with
    | none => rw [hm] at h; exact absurd rfl h
    | some s1 =>
      rw [hm] at h
      dsimp only at h
      have hs : s = '-' :: s1 := by
        have := (pfxConsume_eq_some ['-'] s s1).mp hm
        simpa using this
      subst hs
      cases h2 : pfxConsume ['n','o','-'] s1 with
      | some s2 =>
        rw [h2] at h
        dsimp only at h
        by_cases he : s2 = name
        · subst he
          have := (pfxConsume_eq_some ['n','o','-'] s1 s2).mp h2
          subst this
          right; left; rfl
        · rw [if_neg he] at h
          exact absurd rfl h
      | none =>
        rw [h2] at h
        dsimp only at h
        cases h3 : pfxConsume name s1 with
        | none => rw [h3] at h; exact absurd rfl h
        | some s2 =>
          rw [h3] at h
          dsimp only at h
          have hs1 : s1 = name ++ s2 := (pfxConsume_eq_some name s1 s2).mp h3
          subst hs1
          cases h4 : pfxConsume ['='] s2 with
          | some v =>
            have : s2 = '=' :: v := by
              have := (pfxConsume_eq_some ['='] s2 v).mp h4
              simpa using this
            subst this
            right; right; exact ⟨v, rfl⟩
          | none =>
            rw [h4] at h
            dsimp only at h
            by_cases he : s2 = []
            · subst he
              left
              simp
            · rw [if_neg he] at h
              exact absurd rfl h

/-- Witness for the amended claim C6 at the concrete name `pre`. -/
theorem boolOption_parse_exact_witness :
    boolOptionParse ['p','r','e'] ('-' :: ['p','r','e']) = .setVal true :=
  (boolOption_parse_exact ['p','r','e'] (by decide)).1

/-- Counterexample to claim C6 as stated: for the option name `no-x`, the
argument `-no-x` (the form `-N` of the claim, which should enable the
option) is rejected by `BoolOption::parse`, because the `no-` branch fires
and then `strcmp(span, name)` compares `x` with `no-x`. -/
theorem boolOption_no_name_counterexample :
    boolOptionParse ['n','o','-','x'] ['-','n','o','-','x'] = .noMatch ∧
      (ParseRes.noMatch : ParseRes Bool) ≠ .setVal true := by
  exact ⟨by decide, by decide⟩

/-- Claim C4: `Option::parseEnv` consults exactly the environment variable
`MINISAT_` + name with `-` replaced by `_` and every other character
upper-cased; if that variable is set and its value parses, the option's
value becomes the parsed value and `true` is returned; otherwise the value
is unchanged and `false` is returned. -/
theorem parseEnv_exact_var {V : Type} (env : List Char → Option (List Char))
    (name : List Char) (pv : List Char → Option V) (cur : V) :
    (∀ env2, env2 (envVarName name) = env (envVarName name) →
        parseEnv env2 name pv cur = parseEnv env name pv cur) ∧
    (∀ v : V, parseEnv env name pv cur = (true, v) ↔
        ∃ s, env (envVarName name) = some s ∧ pv s = some v) ∧
    ((parseEnv env name pv cur).1 = false →
        parseEnv env name pv cur = (false, cur)) ∧
    ((env (envVarName name)).bind pv = none →
        parseEnv env name pv cur = (false, cur)) ∧
    envVarName name = ['M','I','N','I','S','A','T','_'] ++
      name.map (fun c => if c = '-' then '_' else c.toUpper) := by
  refine ⟨?_, ?_, ?_, ?_, rfl⟩
  · intro env2 h
    unfold parseEnv
    rw [h]
  · intro v
    unfold parseEnv
    cases henv : env (envVarName name) with
    | none => simp
    | some s =>
      cases hpv : pv s with
      | none => simp [hpv]
      | some w => simp [hpv, Prod.ext_iff]
  · intro h
    unfold parseEnv at h ⊢
    cases henv : env (envVarName name) with
    | none => rfl
    | some s =>
      rw [henv] at h
      dsimp only at h
      dsimp only
      cases hpv : pv s with
      | none => rfl
      | some w =>
        rw [hpv] at h
        dsimp only at h
        exact absurd h (by simp)
  · intro h
    unfold parseEnv
    cases henv : env (envVarName name) with
    | none => rfl
    | some s =>
      rw [henv] at h
      replace h : pv s = none := by simpa using h
      dsimp only
      rw [h]

/-- Witness for claim C4: a concrete environment holding
`MINISAT_VERB = 1` parsed by a toy value parser. -/
theorem parseEnv_exact_var_witness :
    parseEnv
      (fun s => if s = envVarName ['v','e','r','b'] then some ['1'] else none)
      ['v','e','r','b']
      (fun s => if s = ['1'] then some (1 : Int) else none) 0 = (true, 1) :=
  ((parseEnv_exact_var
      (fun s => if s = envVarName ['v','e','r','b'] then some ['1'] else none)
      ['v','e','r','b']
      (fun s => if s = ['1'] then some (1 : Int) else none) 0).2.1 1).mpr
    ⟨['1'], by decide, by decide⟩

/-- Claim C7: with `NDEBUG` defined, `MINISAT_ASSERT(c, ...)` expands to
`((void)0)` — the outcome is independent of the condition and never reaches
`AssertionFailure` (which prints to stderr and aborts); without `NDEBUG`,
`AssertionFailure` is invoked if and only if the condition is false. -/
theorem assert_compiled_away :
    (∀ c c' : Bool, minisatAssert true c = minisatAssert true c' ∧
        minisatAssert true c = .skipped ∧
        minisatAssert true c ≠ .failedAborts) ∧
    (∀ c : Bool, minisatAssert false c = .failedAborts ↔ c = false) := by
  constructor
  · intro c c'
    exact ⟨rfl, rfl, fun h => AssertOutcome.noConfusion h⟩
  · intro c
    cases c <;> simp [minisatAssert, minisatAssertTest]

theorem parseOptionsLoop_usage_exit_zero
    (opts : List (List Char → OptOutcome)) (strict : Bool) (hp : List Char) :
    ∀ (args kept : List (List Char)) (code : Nat),
      parseOptionsLoop opts strict hp args kept = .exited code true →
        code = 0 := by
  intro args
  induction args with
  | nil =>
    intro kept code h
    simp [parseOptionsLoop] at h
  | cons a rest ih =>
    intro kept code h
    unfold parseOptionsLoop at h
    cases hh : helpCheck hp a with
    | plain =>
      rw [hh] at h
      dsimp only at h
      injection h with h1 h2
      exact h1.symm
    | verbose =>
      rw [hh] at h
      dsimp only at h
      injection h with h1 h2
      exact h1.symm
    | swallowed =>
      rw [hh] at h
      dsimp only at h
      exact ih _ _ h
    | notHelp =>
      rw [hh] at h
      dsimp only at h
      cases hr : runOpts opts a with
      | parsed =>
        rw [hr] at h
        dsimp only at h
        exact ih _ _ h
      | exited =>
        rw [hr] at h
        dsimp only at h
        injection h with h1 h2
        exact absurd h2 (by decide)
      | notParsed =>
        rw [hr] at h
        dsimp only at h
        split_ifs at h with hs
        · injection h with h1 h2
          exact absurd h2 (by decide)
        · exact ih _ _ h

/-- Claim C5 (amended): in strict mode an argument beginning with `-` that
no registered option parses makes `parseOptions` exit with code 1 after an
error diagnostic (not the usage text), and a registered option whose value
is malformed or out of range exits with code 1 from inside `Option::parse`;
the usage text is printed only on the `--help`/`--help-verb` path, which
exits with code 0. -/
theorem invalid_option_exits_one (opts : List (List Char → OptOutcome))
    (hp : List Char) (a : List Char) (rest : List (List Char))
    (hnh : helpCheck hp a = .notHelp) :
    (runOpts opts a = .notParsed → (pfxConsume ['-'] a).isSome = true →
        parseOptionsModel opts true hp (a :: rest) = .exited 1 false) ∧
    (runOpts opts a = .exited → ∀ strict,
        parseOptionsModel opts strict hp (a :: rest) = .exited 1 false) ∧
    (∀ (V : Type) (name : List Char) (pv : List Char → Option V)
        (v : List Char), pv v = none →
        runOpts [fun s => toOutcome (optionParse name pv s)]
            ('-' :: (name ++ '=' :: v)) = .exited) ∧
    (∀ strict args code,
        parseOptionsModel opts strict hp args = .exited code true →
          code = 0) := by
  refine ⟨?_, ?_, ?_, ?_⟩
  · intro hr hd
    unfold parseOptionsModel parseOptionsLoop
    rw [hnh]
    dsimp only
    rw [hr]
    dsimp only
    rw [if_pos (by simp [hd])]
  · intro hr strict
    unfold parseOptionsModel parseOptionsLoop
    rw [hnh]
    dsimp only
    rw [hr]
  · intro V name pv v hpv
    have hop : optionParse name pv ('-' :: (name ++ '=' :: v)) = .exitFail := by
      unfold optionParse
      rw [dash_consume]
      dsimp only
      rw [pfxConsume_append]
      dsimp only
      rw [eqConsume]
      dsimp only
      rw [hpv]
    unfold runOpts
    dsimp only
    rw [hop]
    rfl
  · exact fun strict args code h =>
      parseOptionsLoop_usage_exit_zero opts strict hp args [] code h

/-- Witness for the amended claim C5 with no registered options, empty
help prefix and the single strict-mode argument `-x`. -/
theorem invalid_option_exits_one_witness :
    (runOpts [] ['-','x'] = .notParsed →
        (pfxConsume ['-'] ['-','x']).isSome = true →
        parseOptionsModel [] true [] (['-','x'] :: []) = .exited 1 false) ∧
    (runOpts [] ['-','x'] = .exited → ∀ strict,
        parseOptionsModel [] strict [] (['-','x'] :: []) = .exited 1 false) ∧
    (∀ (V : Type) (name : List Char) (pv : List Char → Option V)
        (v : List Char), pv v = none →
        runOpts [fun s => toOutcome (optionParse name pv s)]
            ('-' :: (name ++ '=' :: v)) = .exited) ∧
    (∀ strict args code,
        parseOptionsModel [] strict [] args = .exited code true →
          code = 0) :=
  invalid_option_exits_one [] [] ['-','x'] [] (by decide)

/-- Counterexample to claim C5 as stated: the strict-mode unknown flag
`-x` makes `parseOptions` exit with code 1 without printing the usage text
(it prints only an `ERROR! Unknown flag` diagnostic pointing at `--help`),
so the claim's "prints usage" is wrong. -/
theorem unknown_flag_no_usage_counterexample :
    parseOptionsModel [] true [] [['-','x']] = .exited 1 false ∧
      CliResult.exited 1 false ≠ CliResult.exited 1 true := by
  exact ⟨by decide, by decide⟩

theorem digit_bounds (c : Char) (h : c.isDigit = true) :
    48 ≤ (c.toNat : Int) ∧ (c.toNat : Int) ≤ 57 := by
  simp only [Char.isDigit, Bool.and_eq_true, decide_eq_true_eq] at h
  obtain ⟨h1, h2⟩ := h
  have g1 : (48 : UInt32).toNat ≤ c.val.toNat := h1
  have g2 : c.val.toNat ≤ (57 : UInt32).toNat := h2
  unfold Char.toNat
  constructor
  · exact_mod_cast g1
  · exact_mod_cast g2

theorem digit_not_space (c : Char) (hd : c.isDigit = true) :
    isSpaceChar c = false := by
  have hb := (digit_bounds c hd).1
  have key : ∀ d : Char, d.toNat < 48 → (c == d) = false := by
    intro d hdn
    rw [beq_eq_false_iff_ne]
    intro hc
    subst hc
    omega
  unfold isSpaceChar
  rw [key ' ' (by decide), key '\t' (by decide), key '\n' (by decide),
      key '\x0b' (by decide), key '\x0c' (by decide), key '\r' (by decide)]
  rfl

theorem digitsSpan_all (ds : List Char) (h : ds.all Char.isDigit = true) :
    digitsSpan ds = (ds, []) := by
  induction ds with
  | nil => rfl
  | cons c cs ih =>
    simp only [List.all_cons, Bool.and_eq_true] at h
    unfold digitsSpan
    rw [if_pos h.1, ih h.2]

theorem digitsVal_fold_nonneg :
    ∀ (ds : List Char), ds.all Char.isDigit = true → ∀ a : Int, 0 ≤ a →
      0 ≤ ds.foldl (fun a c => 10 * a + ((c.toNat : Int) - 48)) a := by
  intro ds
  induction ds with
  | nil => intro _ a ha; simpa [List.foldl] using ha
  | cons c cs ih =>
    intro h a ha
    simp only [List.all_cons, Bool.and_eq_true] at h
    simp only [List.foldl]
    apply ih h.2
    have := (digit_bounds c h.1).1
    omega

theorem digitsVal_nonneg (ds : List Char) (h : ds.all Char.isDigit = true) :
    0 ≤ digitsVal ds :=
  digitsVal_fold_nonneg ds h 0 (le_refl 0)

theorem digit_strtol (ds : List Char) (hne : ds ≠ [])
    (h : ds.all Char.isDigit = true) :
    strtolModel ds = (clampLong (digitsVal ds), []) := by
  match ds with
  | c :: cs =>
    have hall := h
    simp only [List.all_cons, Bool.and_eq_true] at h
    have hd := h.1
    have hsp : isSpaceChar c = false := digit_not_space c hd
    have hds : dropSpaces (c :: cs) = c :: cs := by
      unfold dropSpaces
      rw [hsp]
      simp
    have hm : c ≠ '-' := by
      intro hc; rw [hc] at hd; exact absurd hd (by decide)
    have hp : c ≠ '+' := by
      intro hc; rw [hc] at hd; exact absurd hd (by decide)
    have hsgn : strtolSign (dropSpaces (c :: cs)) = 1 := by
      rw [hds]
      unfold strtolSign
      rw [if_neg (by simp [hm])]
    have hbody : strtolBody (dropSpaces (c :: cs)) = c :: cs := by
      rw [hds]
      unfold strtolBody
      rw [if_neg (by simp [hm, hp])]
    unfold strtolModel
    rw [hbody, hsgn, digitsSpan_all _ hall]
    rw [if_neg (by simp)]
    rw [one_mul]

theorem clamp_wrap_id (x : Int) (h0 : 0 ≤ x) (h1 : x ≤ intMax) :
    wrap32 (clampLong x) = x := by
  unfold clampLong longMin longMax intMax at *
  rw [max_eq_right, min_eq_right]
  · unfold wrap32; omega
  · omega
  · rw [min_eq_right] <;> omega

theorem dle_nan_right (a : DoubleV) : dle a .nan = false := by
  cases a <;> rfl

theorem dle_nan_left (a : DoubleV) : dle .nan a = false := by
  cases a <;> rfl

theorem dcmp (a b : DoubleV) (ha : dIsNan a = false) (hb : dIsNan b = false) :
    (dlt a b = true ∧ deq a b = false ∧ deq b a = false ∧ dlt b a = false ∧
        dle a b = true ∧ dle b a = false) ∨
    (deq a b = true ∧ deq b a = true ∧ dlt a b = false ∧ dlt b a = false ∧
        dle a b = true ∧ dle b a = true) ∨
    (dlt b a = true ∧ deq a b = false ∧ deq b a = false ∧ dlt a b = false ∧
        dle a b = false ∧ dle b a = true) := by
  cases a with
  | nan => exact absurd ha (by simp [dIsNan])
  | negInf =>
    cases b with
    | nan => exact absurd hb (by simp [dIsNan])
    | negInf => exact Or.inr (Or.inl ⟨rfl, rfl, rfl, rfl, rfl, rfl⟩)
    | finite w => exact Or.inl ⟨rfl, rfl, rfl, rfl, rfl, rfl⟩
    | posInf => exact Or.inl ⟨rfl, rfl, rfl, rfl, rfl, rfl⟩
  | finite q =>
    cases b with
    | nan => exact absurd hb (by simp [dIsNan])
    | negInf => exact Or.inr (Or.inr ⟨rfl, rfl, rfl, rfl, rfl, rfl⟩)
    | posInf => exact Or.inl ⟨rfl, rfl, rfl, rfl, rfl, rfl⟩
    | finite w =>
      rcases lt_trichotomy q w with h | h | h
      · refine Or.inl ?_
        simp only [dlt, dle, deq, decide_eq_true_eq, decide_eq_false_iff_not]
        exact ⟨h, ne_of_lt h, Ne.symm (ne_of_lt h), not_lt.mpr (le_of_lt h),
          le_of_lt h, not_le.mpr h⟩
      · subst h
        refine Or.inr (Or.inl ?_)
        simp only [dlt, dle, deq, decide_eq_true_eq, decide_eq_false_iff_not]
        exact ⟨trivial, trivial, lt_irrefl q, lt_irrefl q, le_refl q, le_refl q⟩
      · refine Or.inr (Or.inr ?_)
        simp only [dlt, dle, deq, decide_eq_true_eq, decide_eq_false_iff_not]
        exact ⟨h, Ne.symm (ne_of_lt h), ne_of_lt h, not_lt.mpr (le_of_lt h),
          not_le.mpr h, le_of_lt h⟩
  | posInf =>
    cases b with
    | nan => exact absurd hb (by simp [dIsNan])
    | negInf => exact Or.inr (Or.inr ⟨rfl, rfl, rfl, rfl, rfl, rfl⟩)
    | finite w => exact Or.inr (Or.inr ⟨rfl, rfl, rfl, rfl, rfl, rfl⟩)
    | posInf => exact Or.inr (Or.inl ⟨rfl, rfl, rfl, rfl, rfl, rfl⟩)

theorem reject_hi_iff (hiIncl : Bool) (tmp hi : DoubleV)
    (h1 : dIsNan tmp = false) (h2 : dIsNan hi = false) :
    (¬(dle hi tmp = true ∧ (hiIncl = false ∨ deq tmp hi = false))) ↔
      (dlt tmp hi = true ∨ (hiIncl = true ∧ deq tmp hi = true)) := by
  rcases dcmp tmp hi h1 h2 with ⟨a1, a2, a3, a4, a5, a6⟩ |
      ⟨a1, a2, a3, a4, a5, a6⟩ | ⟨a1, a2, a3, a4, a5, a6⟩
  · rw [a6, a2, a1]
    simp
  · rw [a6, a1, a3]
    cases hiIncl <;> simp
  · rw [a6, a2, a4]
    simp

theorem reject_lo_iff (loIncl : Bool) (tmp lo : DoubleV)
    (h1 : dIsNan tmp = false) (h2 : dIsNan lo = false) :
    (¬(dle tmp lo = true ∧ (loIncl = false ∨ deq tmp lo = false))) ↔
      (dlt lo tmp = true ∨ (loIncl = true ∧ deq tmp lo = true)) := by
  rcases dcmp tmp lo h1 h2 with ⟨a1, a2, a3, a4, a5, a6⟩ |
      ⟨a1, a2, a3, a4, a5, a6⟩ | ⟨a1, a2, a3, a4, a5, a6⟩
  · rw [a5, a2, a4]
    simp
  · rw [a5, a1, a4]
    cases loIncl <;> simp
  · rw [a5, a1]
    simp

theorem doubleParseCheck_iff (r : DoubleRange) (old tmp : DoubleV)
    (rest : List Char) (hlo : dIsNan r.lo = false)
    (hhi : dIsNan r.hi = false) :
    ((doubleParseCheck r old tmp rest).1 = true ↔
      rest = [] ∧ (dIsNan tmp = true ∨
        ((dlt r.lo tmp = true ∨ (r.loIncl = true ∧ deq tmp r.lo = true)) ∧
         (dlt tmp r.hi = true ∨ (r.hiIncl = true ∧ deq tmp r.hi = true))))) := by
  unfold doubleParseCheck
  by_cases hrest : rest ≠ []
  · rw [if_pos hrest]
    simp [hrest]
  · replace hrest : rest = [] := not_ne_iff.mp hrest
    rw [if_neg (by simp [hrest])]
    by_cases hnan : dIsNan tmp = true
    · have htmp : tmp = .nan := by cases tmp <;> simp_all [dIsNan]
      subst htmp
      rw [if_neg (by simp [dle_nan_right]), if_neg (by simp [dle_nan_left])]
      simp [hrest, dIsNan]
    · replace hnan : dIsNan tmp = false := by
        cases h2 : dIsNan tmp
        · rfl
        · exact absurd h2 hnan
      have hHi := reject_hi_iff r.hiIncl tmp r.hi hnan hhi
      have hLo := reject_lo_iff r.loIncl tmp r.lo hnan hlo
      by_cases hc1 : dle r.hi tmp = true ∧ (r.hiIncl = false ∨ deq tmp r.hi = false)
      · rw [if_pos hc1]
        have hno : ¬(dlt tmp r.hi = true ∨
            (r.hiIncl = true ∧ deq tmp r.hi = true)) := by
          rw [← hHi]
          exact not_not_intro hc1
        simp [hrest, hnan, hno]
      · rw [if_neg hc1]
        by_cases hc2 : dle tmp r.lo = true ∧ (r.loIncl = false ∨ deq tmp r.lo = false)
        · rw [if_pos hc2]
          have hno : ¬(dlt r.lo tmp = true ∨
              (r.loIncl = true ∧ deq tmp r.lo = true)) := by
            rw [← hLo]
            exact not_not_intro hc2
          simp [hrest, hnan, hno]
        · rw [if_neg hc2]
          simp [hrest, hnan, hHi.mp hc1, hLo.mp hc2]

theorem nan_always_accepted (r : DoubleRange) (old : DoubleV) :
    doubleParseCheck r old .nan [] = (true, .nan) := by
  unfold doubleParseCheck
  rw [if_neg (by simp), if_neg (by simp [dle_nan_right]),
      if_neg (by simp [dle_nan_left])]

theorem clamp_wrap_id_neg (x : Int) (h0 : 0 ≤ x) (h1 : x ≤ 2 ^ 31) :
    wrap32 (clampLong (-x)) = -x := by
  unfold clampLong longMin longMax at *
  rw [max_eq_right, min_eq_right]
  · unfold wrap32; omega
  · omega
  · rw [min_eq_right] <;> omega

theorem digit_strtol_neg (ds : List Char) (hne : ds ≠ [])
    (h : ds.all Char.isDigit = true) :
    strtolModel ('-' :: ds) = (clampLong (-(digitsVal ds)), []) := by
  have hds : dropSpaces ('-' :: ds) = '-' :: ds := by
    unfold dropSpaces
    rw [show isSpaceChar '-' = false from by decide]
    simp
  have hsgn : strtolSign (dropSpaces ('-' :: ds)) = -1 := by
    rw [hds]
    unfold strtolSign
    rw [if_pos (by simp)]
  have hbody : strtolBody (dropSpaces ('-' :: ds)) = ds := by
    rw [hds]
    unfold strtolBody
    rw [if_pos (Or.inl (by simp))]
    rfl
  unfold strtolModel
  rw [hbody, hsgn, digitsSpan_all _ h]
  rw [if_neg (by simpa using hne)]
  rw [neg_one_mul]

/-- Claim C8 (amended): `IntOption::parseValue(str)` accepts if and only if
`strtol` consumes the entire string (leading whitespace and an optional
sign allowed; an empty digit run yields 0 with `end` reset to the start, so
the empty string is accepted as 0; out-of-long-range runs are clamped and
the `long` narrowed to `int32`) and the resulting value lies in `[lo, hi]`;
on plain and on `-`-signed in-range digit strings this is the usual decimal
value.  `DoubleOption::parseValue` accepts a fully `strtod`-parsed value
`v` iff `v` is NaN — both range comparisons are IEEE-false on NaN, so a
parsed `nan` is accepted and stored *regardless of the declared range* —
or `v` lies within the declared range (endpoints may be `±HUGE_VAL`)
respecting each endpoint's inclusive/exclusive flag.  Every rejection
prints a diagnostic and leaves the stored value unchanged. -/
theorem parseValue_range_checked :
    (∀ lo hi old s, (intParseValue lo hi old s).ok = false →
        (intParseValue lo hi old s).value = old ∧
          (intParseValue lo hi old s).printed = true) ∧
    (∀ lo hi old s, (intParseValue lo hi old s).ok = true →
        lo ≤ (intParseValue lo hi old s).value ∧
          (intParseValue lo hi old s).value ≤ hi ∧
          (intParseValue lo hi old s).printed = false ∧
          (strtolModel s).2 = [] ∧
          (intParseValue lo hi old s).value = wrap32 (strtolModel s).1) ∧
    (∀ lo hi old s, ((intParseValue lo hi old s).ok = true ↔
        ((strtolModel s).2 = [] ∧ lo ≤ wrap32 (strtolModel s).1 ∧
          wrap32 (strtolModel s).1 ≤ hi))) ∧
    (∀ lo hi old ds, ds ≠ [] → ds.all Char.isDigit = true →
        digitsVal ds ≤ intMax →
        intParseValue lo hi old ds =
          if hi < digitsVal ds then ⟨false, old, true⟩
          else if digitsVal ds < lo then ⟨false, old, true⟩
          else ⟨true, digitsVal ds, false⟩) ∧
    (∀ lo hi old ds, ds ≠ [] → ds.all Char.isDigit = true →
        digitsVal ds ≤ 2 ^ 31 →
        intParseValue lo hi old ('-' :: ds) =
          if hi < -(digitsVal ds) then ⟨false, old, true⟩
          else if -(digitsVal ds) < lo then ⟨false, old, true⟩
          else ⟨true, -(digitsVal ds), false⟩) ∧
    (∀ r old, doubleParseCheck r old .nan [] = (true, DoubleV.nan)) ∧
    (∀ r old tmp rest, dIsNan r.lo = false → dIsNan r.hi = false →
        ((doubleParseCheck r old tmp rest).1 = true ↔
          rest = [] ∧ (dIsNan tmp = true ∨
            ((dlt r.lo tmp = true ∨ (r.loIncl = true ∧ deq tmp r.lo = true)) ∧
             (dlt tmp r.hi = true ∨
               (r.hiIncl = true ∧ deq tmp r.hi = true)))))) ∧
    (∀ r old tmp rest, (doubleParseCheck r old tmp rest).1 = false →
        (doubleParseCheck r old tmp rest).2 = old) := by
  refine ⟨?_, ?_, ?_, ?_, ?_, ?_, ?_, ?_⟩
  · intro lo hi old s h
    unfold intParseValue at h ⊢
    split_ifs at h ⊢ <;> simp_all
  · intro lo hi old s h
    unfold intParseValue at h ⊢
    split_ifs at h ⊢ with h1 h2 h3
    refine ⟨by dsimp only; omega, by dsimp only; omega, rfl, ?_, rfl⟩
    simpa using h1
  · intro lo hi old s
    unfold intParseValue
    split_ifs with h1 h2 h3
    · exact iff_of_false (by simp) (by rintro ⟨h, _, _⟩; exact h1 h)
    · exact iff_of_false (by simp) (by rintro ⟨_, _, h5⟩; omega)
    · exact iff_of_false (by simp) (by rintro ⟨_, h4, _⟩; omega)
    · exact iff_of_true rfl ⟨by simpa using h1, by omega, by omega⟩
  · intro lo hi old ds hne hall hle
    have hnn := digitsVal_nonneg ds hall
    have hs := digit_strtol ds hne hall
    have hw := clamp_wrap_id (digitsVal ds) hnn hle
    unfold intParseValue
    rw [hs]
    dsimp only
    rw [if_neg (by simp), hw]
  · intro lo hi old ds hne hall hle
    have hnn := digitsVal_nonneg ds hall
    have hs := digit_strtol_neg ds hne hall
    have hw := clamp_wrap_id_neg (digitsVal ds) hnn hle
    unfold intParseValue
    rw [hs]
    dsimp only
    rw [if_neg (by simp), hw]
  · exact nan_always_accepted
  · exact fun r old tmp rest hlo hhi => doubleParseCheck_iff r old tmp rest hlo hhi
  · intro r old tmp rest h
    unfold doubleParseCheck at h ⊢
    split_ifs at h ⊢ <;> simp_all

/-- Witness for the amended claim C8: the digit string `1` against the
range `[0, 2]` is accepted with value 1, and a parsed NaN is accepted
against the open range `(-HUGE_VAL, HUGE_VAL)`. -/
theorem parseValue_range_checked_witness :
    intParseValue 0 2 7 ['1'] = ⟨true, 1, false⟩ ∧
      doubleParseCheck ⟨.negInf, .posInf, false, false⟩ (.finite 0) .nan []
        = (true, .nan) := by
  constructor
  · have h := parseValue_range_checked.2.2.2.1 0 2 7 ['1'] (by decide)
      (by decide) (by decide)
    rw [h]
    decide
  · exact parseValue_range_checked.2.2.2.2.2.1
      ⟨.negInf, .posInf, false, false⟩ (.finite 0)

/-- Counterexample to claim C8 as stated: `strtol` converts nothing on the
empty string and resets `end` to the start, so `*end == '\0'` holds and
`IntOption::parseValue("")` accepts with value 0 — but the empty string
does not parse as a decimal integer. -/
theorem int_parse_empty_counterexample :
    intParseValue 0 2 7 [] = ⟨true, 0, false⟩ ∧ hasDecimalForm [] = false := by
  exact ⟨by decide, by decide⟩

end Minisat
